import Mathlib

/-!
# Financial Records Management System: journal recorder and ledger aggregator

A shallow embedding of `project.cpp`.

* Text (file contents, `std::string` values) is a list of characters, a
  character standing for one `char` of the source.
* `long long` values are integers; every arithmetic result is reduced to the
  64-bit two's-complement range by `wrap64`.
* What the user types is given by the values the variables hold after the
  reads from `cin`.
* An `ifstream` is the unread rest of the file together with its `eofbit` and
  `failbit`; `operator>>` and `std::getline` are functions on that state.
* The member functions of `journal` and `ledger_trial` are functions on
  records holding the member variables; the global trial totals, the
  `ledgernames` array and `index` live in `Globals`.
-/

namespace FRMS

/-! ## Text and formatting primitives -/

/-- Contents of a text file or of a `std::string`. -/
abbrev Text := List Char

/-- Least value of a `long long`. -/
def LLONG_MIN : Int := -9223372036854775808

/-- Greatest value of a `long long`. -/
def LLONG_MAX : Int := 9223372036854775807

/-- Reduction of an integer to the 64-bit two's-complement range, the result
of `long long` arithmetic on the target machine. -/
def wrap64 (x : Int) : Int :=
  (x + 9223372036854775808) % 18446744073709551616 - 9223372036854775808

/-- Whitespace in the classic locale, as skipped by `operator>>`. -/
def isSpace (c : Char) : Bool :=
  c == ' ' || c == '\t' || c == '\n' || c == '\x0b' || c == '\x0c' || c == '\r'

/-- Decimal digit test used by the numeric extractor. -/
def isDigit (c : Char) : Bool := 48 ≤ c.toNat && c.toNat ≤ 57

/-- The character of a decimal digit. -/
def digitChar (d : Nat) : Char := Char.ofNat (48 + d)

/-- Decimal digits of a natural number, most significant first, pushed in
front of `acc`. -/
def natTextAux : Nat → Nat → Text → Text
  | 0, _, acc => acc
  | fuel + 1, n, acc =>
    if n < 10 then digitChar n :: acc
    else natTextAux fuel (n / 10) (digitChar (n % 10) :: acc)

/-- Decimal rendering of a natural number. -/
def natText (n : Nat) : Text := natTextAux (n + 1) n []

/-- The text `out << v` writes for a `long long`. -/
def showInt (v : Int) : Text :=
  if v < 0 then '-' :: natText v.natAbs else natText v.toNat

/-- Output of `setw(w) << s`: right-aligned in a field of width `w`, padded
with blanks, never truncated. -/
def setw (w : Nat) (s : Text) : Text := List.replicate (w - s.length) ' ' ++ s

/-- A rule of `n` dashes (the `for (j = n; j > 0; j--) out << "-"` loops). -/
def dashes (n : Nat) : Text := List.replicate n '-'

/-- The line terminator written by `endl`. -/
def endl : Text := ['\n']

/-! ## Input streams -/

/-- An `ifstream`: the unread characters and the two state bits the program
can observe. -/
structure ifstream where
  buf : Text
  eofbit : Bool
  failbit : Bool
deriving DecidableEq, Repr

/-- A stream freshly opened on a file with the given contents. -/
def ifstream.open (contents : Text) : ifstream := ⟨contents, false, false⟩

/-- Member `eof()`. -/
def ifstream.eof (s : ifstream) : Bool := s.eofbit

/-- Member `good()`. -/
def ifstream.good (s : ifstream) : Bool := !s.eofbit && !s.failbit

/-- The `sentry` of a formatted extraction: fails on a stream that is not
good, otherwise skips leading whitespace and fails (setting both bits) when
that exhausts the stream. Returns the stream and whether extraction may go
ahead. -/
def sentry (s : ifstream) : ifstream × Bool :=
  if s.good then
    match s.buf.dropWhile isSpace with
    | [] => (⟨[], true, true⟩, false)
    | c :: cs => (⟨c :: cs, false, false⟩, true)
  else (⟨s.buf, s.eofbit, true⟩, false)

/-- Formatted extraction `in >> str` of a `std::string`: one maximal run of
non-blank characters. When the sentry fails `str` keeps its old value. -/
def extractString (s : ifstream) (str : Text) : ifstream × Text :=
  match sentry s with
  | (s1, false) => (s1, str)
  | (s1, true) =>
    let rest := s1.buf.dropWhile (fun c => !isSpace c)
    (⟨rest, rest.isEmpty, false⟩, s1.buf.takeWhile (fun c => !isSpace c))

/-- Value of a run of decimal digits. -/
def digitsValue (ds : Text) : Nat := ds.foldl (fun a c => a * 10 + (c.toNat - 48)) 0

/-- Formatted extraction `in >> v` of a `long long`: optional sign, then
digits. When the sentry fails `v` keeps its old value; with no digit the
value 0 is stored and `failbit` set; out of range the nearest bound is
stored and `failbit` set. `eofbit` is set when the scan reaches the end.  -/
def extractInt (s : ifstream) (v : Int) : ifstream × Int :=
  match sentry s with
  | (s1, false) => (s1, v)
  | (s1, true) =>
    let neg := s1.buf.head? == some '-'
    let body := if neg || s1.buf.head? == some '+' then s1.buf.tail else s1.buf
    let ds := body.takeWhile isDigit
    let rest := body.dropWhile isDigit
    let mag : Int := digitsValue ds
    let val : Int := if neg then -mag else mag
    if ds.isEmpty then (⟨rest, rest.isEmpty, true⟩, 0)
    else if LLONG_MAX < val then (⟨rest, rest.isEmpty, true⟩, LLONG_MAX)
    else if val < LLONG_MIN then (⟨rest, rest.isEmpty, true⟩, LLONG_MIN)
    else (⟨rest, rest.isEmpty, false⟩, val)

/-- Unformatted `std::getline(in, str)`: on a stream that is not good it sets
`failbit` and leaves `str`; otherwise it moves the characters up to the next
line break into `str` and discards the break, sets `eofbit` when the end is
reached first, and `failbit` when nothing at all was extracted. -/
def getline (s : ifstream) (str : Text) : ifstream × Text :=
  if s.good then
    match s.buf.dropWhile (fun c => c != '\n') with
    | [] => (⟨[], true, s.buf.isEmpty⟩, s.buf)
    | _ :: rest => (⟨rest, false, false⟩, s.buf.takeWhile (fun c => c != '\n'))
  else (⟨s.buf, s.eofbit, true⟩, str)

/-! ## The journal recorder (`class journal`) -/

/-- One journal entry as the recorder holds it when the record is written:
`date`, `from` and `amount` of `debit()`, `to` and `amount` of `credit()`,
and the description line. -/
structure Entry where
  date : Text
  from_ : Text
  debit_amount : Int
  to_ : Text
  credit_amount : Int
  disc : Text
deriving DecidableEq, Repr

/-- What `journal::display_logo` writes for the journal name and date typed
by the user. The second rule is not terminated. -/
def journal.display_logo (name date : Text) : Text :=
  setw 50 name ++ endl
  ++ setw 50 "JOURNAL".toList ++ endl
  ++ setw 50 date ++ endl
  ++ dashes 125 ++ endl
  ++ setw 10 "DATE|".toList ++ setw 25 "DESCRIPTION".toList
  ++ setw 50 "|DEBIT".toList ++ setw 20 "|CREDIT".toList ++ endl
  ++ dashes 125

/-- What `journal::debit` writes. -/
def journal.debit (e : Entry) : Text :=
  e.date ++ setw 20 e.from_ ++ setw 70 (showInt e.debit_amount) ++ endl

/-- What `journal::credit` writes. -/
def journal.credit (e : Entry) : Text :=
  setw 10 "|".toList ++ setw 40 "to ".toList ++ e.to_
  ++ setw 50 (showInt e.credit_amount) ++ endl

/-- The description line of one pass of the recorder loop. -/
def journal.description (e : Entry) : Text :=
  setw 11 "|(".toList ++ setw 50 e.disc ++ ")".toList ++ endl

/-- One pass of the `while (i == 0)` loop of `journal::get_entries`: a line
break, the debit line, the credit line, the description line and an
unterminated rule. -/
def journal.pass (e : Entry) : Text :=
  endl ++ journal.debit e ++ journal.credit e ++ journal.description e ++ dashes 125

/-- Text written by the passes of the recorder loop for the given entries. -/
def journal.passes : List Entry → Text
  | [] => []
  | e :: es => journal.pass e ++ journal.passes es

/-- Contents of `journal.txt` after `journal::get_entries` recorded the given
entries under the given journal name and date. -/
def journal.get_entries (name date : Text) (es : List Entry) : Text :=
  journal.display_logo name date ++ journal.passes es

/-! ## The ledger aggregator (`class ledger_trial`) -/

/-- The globals `trial_debit_sum`, `trial_credit_sum`, `ledgernames` and
`index`. -/
structure Globals where
  trial_debit_sum : Int
  trial_credit_sum : Int
  ledgernames : List Text
  index : Nat
deriving DecidableEq, Repr

/-- The member variables of a `ledger_trial` object. The output streams are
represented by the text written to them. -/
structure ledger_trial where
  out_file : Text
  out_file_trial : Text
  in_file : ifstream
  filename : Text
  account_name : Text
  debit_sum : Int
  credit_sum : Int
  entery : Text
  date : Text
  entry : Text
  amount : Int
  amount1 : Int
  balance_cd : Int
  flag : Bool
deriving DecidableEq, Repr

/-- The tuple one pass of the scanning loop holds after its reads. -/
structure Parsed where
  date : Text
  entery : Text
  amount : Int
  entry : Text
  amount1 : Int
deriving DecidableEq, Repr

/-- The constructor. `amount` and `amount1` are not initialised by it; `u`
and `u1` stand for whatever the storage holds. It also zeroes the global
trial totals. The input stream is not yet opened on any file; `start()`
opens it. -/
def ledger_trial.new (u u1 : Int) (g : Globals) : ledger_trial × Globals :=
  ({ out_file := [], out_file_trial := [], in_file := ifstream.open [],
     filename := [], account_name := [], debit_sum := 0, credit_sum := 0,
     entery := [], date := [], entry := [], amount := u, amount1 := u1,
     balance_cd := 0, flag := true },
   { g with trial_debit_sum := 0, trial_credit_sum := 0 })

/-- The reads at the top of the loop body of `ledger_trial::get_entries`:
`date`, `entery`, `amount`, two tokens into the local `waste` (whose value is
never used), `entry`, `amount1`. -/
def ledger_trial.readRecord (o : ledger_trial) : ledger_trial :=
  let r1 := extractString o.in_file o.date
  let r2 := extractString r1.1 o.entery
  let r3 := extractInt r2.1 o.amount
  let w1 := extractString r3.1 []
  let w2 := extractString w1.1 w1.2
  let r4 := extractString w2.1 o.entry
  let r5 := extractInt r4.1 o.amount1
  { o with in_file := r5.1, date := r1.2, entery := r2.2, amount := r3.2,
           entry := r4.2, amount1 := r5.2 }

/-- The tuple held after the reads. -/
def ledger_trial.parsed (o : ledger_trial) : Parsed :=
  ⟨o.date, o.entery, o.amount, o.entry, o.amount1⟩

/-- The ledger line written for a record whose debit account is this ledger. -/
def debitLine (date entery : Text) (amount1 : Int) : Text :=
  setw 10 date ++ setw 20 entery ++ setw 10 (showInt amount1) ++ "|".toList ++ endl

/-- The ledger line written for a record whose credit account is this ledger. -/
def creditLine (date entry : Text) (amount : Int) : Text :=
  setw 41 "|".toList ++ setw 9 date ++ setw 20 entry ++ setw 15 (showInt amount) ++ endl

/-- The `if (entery == filename) ... else if (entry == filename) ...` of the
loop body. -/
def ledger_trial.classify (o : ledger_trial) : ledger_trial :=
  if o.entery = o.filename then
    { o with out_file := o.out_file ++ debitLine o.date o.entery o.amount1,
             debit_sum := wrap64 (o.debit_sum + o.amount) }
  else if o.entry = o.filename then
    { o with out_file := o.out_file ++ creditLine o.date o.entry o.amount,
             credit_sum := wrap64 (o.credit_sum + o.amount1) }
  else o

/-- A loop `for (i = 0; i < n; i++) getline(in, waste)`. -/
def skipLines : Nat → ifstream → ifstream
  | 0, s => s
  | n + 1, s => skipLines n (getline s []).1

/-- One pass of the body of the `do ... while` loop. -/
def ledger_trial.pass (o : ledger_trial) : ledger_trial :=
  let o1 := o.readRecord.classify
  { o1 with in_file := skipLines 3 o1.in_file }

/-- The loop `do ... while (!in_file.eof())`, run for at most `fuel` passes:
`none` when the loop is still running after that many. -/
def ledger_trial.scan : Nat → ledger_trial → Option ledger_trial
  | 0, _ => none
  | fuel + 1, o =>
    if o.pass.in_file.eof then some o.pass else ledger_trial.scan fuel o.pass

/-- The tuples read by the successive passes of the same loop. -/
def ledger_trial.parses : Nat → ledger_trial → Option (List Parsed)
  | 0, _ => none
  | fuel + 1, o =>
    if o.pass.in_file.eof then some [o.readRecord.parsed]
    else (ledger_trial.parses fuel o.pass).map (fun l => o.readRecord.parsed :: l)

/-- Member `total()`. The `close()` calls of its credit branch have no
counterpart here: neither stream is used again after `total()`. -/
def ledger_trial.total (o : ledger_trial) : ledger_trial :=
  if o.debit_sum > o.credit_sum then
    { o with flag := true
             balance_cd := wrap64 (o.debit_sum - o.credit_sum)
             out_file := o.out_file ++ dashes 86 ++ endl
               ++ setw 10 "Total".toList
               ++ setw 10 (showInt (wrap64 (o.debit_sum - o.credit_sum))) ++ endl
               ++ dashes 86 ++ endl }
  else
    { o with flag := false
             balance_cd := wrap64 (o.credit_sum - o.debit_sum)
             out_file := o.out_file ++ dashes 86 ++ endl
               ++ setw 55 "Total ".toList
               ++ setw 15 (showInt (wrap64 (o.credit_sum - o.debit_sum))) ++ endl
               ++ dashes 86 ++ endl }

/-- Member `trial()`. -/
def ledger_trial.trial (o : ledger_trial) (g : Globals) : ledger_trial × Globals :=
  if o.flag = true then
    ({ o with out_file_trial := o.out_file_trial ++ setw 10 o.filename
                ++ setw 15 (showInt o.balance_cd) ++ endl },
     { g with trial_debit_sum := wrap64 (g.trial_debit_sum + o.balance_cd) })
  else
    ({ o with out_file_trial := o.out_file_trial ++ setw 10 o.filename
                ++ setw 30 (showInt o.balance_cd) ++ endl },
     { g with trial_credit_sum := wrap64 (g.trial_credit_sum + o.balance_cd) })

/-- Member `get_entries()`: five skipped lines, the scanning loop, `total()`
and `trial()`. -/
def ledger_trial.get_entries (fuel : Nat) (o : ledger_trial) (g : Globals) :
    Option (ledger_trial × Globals) :=
  match ledger_trial.scan fuel { o with in_file := skipLines 5 o.in_file } with
  | none => none
  | some o1 => some (o1.total.trial g)

/-- Member `start()`, on an object whose streams are closed and in their
initial state (every call in `main` is on its own element of `t`).
`journalTxt` is the contents of `journal.txt` and `name` the value of
`filename` after `cin >> filename`. -/
def ledger_trial.start (fuel : Nat) (journalTxt name : Text) (o : ledger_trial)
    (g : Globals) : Option (ledger_trial × Globals) :=
  let g1 : Globals :=
    { g with ledgernames := g.ledgernames.set g.index (name ++ ".txt".toList)
             index := g.index + 1 }
  let r := getline (ifstream.open journalTxt) []
  let o1 : ledger_trial :=
    { o with debit_sum := 0, credit_sum := 0, balance_cd := 0
             filename := name, account_name := r.2, entery := [], date := [], entry := []
             in_file := r.1
             out_file := r.2 ++ endl ++ setw 50 name ++ endl
               ++ setw 50 "LEDGER".toList ++ endl
               ++ dashes 86 ++ endl
               ++ "Date".toList ++ setw 20 "Particular".toList
               ++ setw 15 "Amount".toList ++ setw 10 "Date".toList
               ++ setw 20 "Particular".toList ++ setw 15 "Amount".toList ++ endl
               ++ dashes 86 ++ endl }
  o1.get_entries fuel g1

/-! ## The ledger phase of `main` -/

/-- The calls `t[i].start()` made by the ledger loop of `main`, one for each
prompt answered with a non-zero number: every call is on its own element of
`t` (given here as constructed) with the ledger name typed for it. The
result is the list of objects after their runs and the globals. -/
def ledgerRuns (fuel : Nat) (journalTxt : Text) :
    List (ledger_trial × Text) → Globals → Option (List ledger_trial × Globals)
  | [], g => some ([], g)
  | (o, name) :: rest, g =>
    match o.start fuel journalTxt name g with
    | none => none
    | some (o1, g1) =>
      match ledgerRuns fuel journalTxt rest g1 with
      | none => none
      | some (os, g2) => some (o1 :: os, g2)

/-- Loop control of `for (i = 1; i < 50; i++) { cin >> number; if (number == 0)
break; t[i].start(); }` in `main`: `number i` is the value read at the
prompt of pass `i`, and each call of `start()` advances the global `index`
by one. Returns `i` and `index` at loop exit; `total_trial()` is then called
on `t[i]`. -/
def main_ledger_loop (number : Nat → Int) : Nat → Nat → Nat → Nat × Nat
  | 0, i, index => (i, index)
  | fuel + 1, i, index =>
    if i < 50 then
      if number i = 0 then (i, index)
      else main_ledger_loop number fuel (i + 1) (index + 1)
    else (i, index)

/-- An object as the constructor leaves it, with both uninitialised fields
holding 0. -/
def blank : ledger_trial := (ledger_trial.new 0 0 ⟨0, 0, List.replicate 50 [], 0⟩).1

/-- The globals when the ledger loop of `main` starts. -/
def globals0 : Globals := ⟨0, 0, List.replicate 50 [], 0⟩

/-! ## Well-formed entries and the sums of the specification -/

/-- A text that `operator>>` reads back as one token: not empty and free of
whitespace. -/
def isToken (t : Text) : Prop := t ≠ [] ∧ ∀ c ∈ t, isSpace c = false

instance (t : Text) : Decidable (isToken t) := by
  unfold isToken; infer_instance

/-- The values a `long long` can hold. -/
def inRange (v : Int) : Prop := LLONG_MIN ≤ v ∧ v ≤ LLONG_MAX

instance (v : Int) : Decidable (inRange v) := by
  unfold inRange; infer_instance

/-- An entry whose record the aggregator reads back field by field: date,
debit account and credit account are single tokens, the debit account is
shorter than its 20-column field (so that a blank separates it from the
date), the amounts are `long long` values and the description is one line. -/
def Entry.wellFormed (e : Entry) : Prop :=
  isToken e.date ∧ isToken e.from_ ∧ e.from_.length < 20 ∧ isToken e.to_
  ∧ inRange e.debit_amount ∧ inRange e.credit_amount ∧ '\n' ∉ e.disc

instance (e : Entry) : Decidable e.wellFormed := by
  unfold Entry.wellFormed; infer_instance

/-- The five fields of an entry that the aggregator parses. -/
def Entry.fields (e : Entry) : Parsed :=
  ⟨e.date, e.from_, e.debit_amount, e.to_, e.credit_amount⟩

/-- Sum of the debit amounts of the entries whose debit account is `A`. -/
def debitTotal (A : Text) (es : List Entry) : Int :=
  ((es.filter (fun e => e.from_ = A)).map (fun e => e.debit_amount)).sum

/-- Sum of the credit amounts of the entries whose credit account is `A`. -/
def creditTotal (A : Text) (es : List Entry) : Int :=
  ((es.filter (fun e => e.to_ = A)).map (fun e => e.credit_amount)).sum

/-- Sum of the credit amounts of the entries whose credit account is `A` and
whose debit account is not `A`. -/
def creditOnlyTotal (A : Text) (es : List Entry) : Int :=
  ((es.filter (fun e => e.to_ = A ∧ e.from_ ≠ A)).map (fun e => e.credit_amount)).sum

/-- The object with its input stream replaced. -/
def ledger_trial.withStream (o : ledger_trial) (f : ifstream) : ledger_trial :=
  { o with in_file := f }

/-- The object with the five parsed fields set to those of an entry. -/
def ledger_trial.withFields (o : ledger_trial) (e : Entry) : ledger_trial :=
  { o with date := e.date, entery := e.from_, amount := e.debit_amount,
           entry := e.to_, amount1 := e.credit_amount }

/-- The state of the object after the reads of a pass have stored the fields
of `e` and the record has been classified (the stream apart). -/
def ledger_trial.post (o : ledger_trial) (e : Entry) : ledger_trial :=
  (o.withFields e).classify

/-- Sum of the balances of the ledgers whose balance is on the debit side. -/
def debitSide (os : List ledger_trial) : Int :=
  ((os.filter (fun o => o.flag)).map (fun o => o.balance_cd)).sum

/-- Sum of the balances of the ledgers whose balance is on the credit side. -/
def creditSide (os : List ledger_trial) : Int :=
  ((os.filter (fun o => !o.flag)).map (fun o => o.balance_cd)).sum

/-- The four values a run leaves in the object for its account: the two
sums, the balance and its side. -/
def ledger_trial.result (o : ledger_trial) : Int × Int × Int × Bool :=
  (o.debit_sum, o.credit_sum, o.balance_cd, o.flag)

/-- The object with the two members replaced that `start()` neither resets
nor reads before writing: the text sent to the trial report and the side
flag. -/
def ledger_trial.withAux (o : ledger_trial) (t : Text) (b : Bool) : ledger_trial :=
  { o with out_file_trial := t, flag := b }

/-- An object left behind by some earlier use: sums, balance, side and texts
all set. -/
def usedObject : ledger_trial :=
  { blank with debit_sum := 999, credit_sum := 5, balance_cd := 994, flag := false,
               filename := "Rent".toList, entery := "Rent".toList, entry := "Cash".toList,
               date := "09/09/2023".toList, out_file_trial := "Rent 994".toList }

/-- The text of one record as the aggregator meets it: debit line, credit
line, description line and rule. -/
def journal.record (e : Entry) : Text :=
  journal.debit e ++ (journal.credit e ++ (journal.description e ++ dashes 125))

/-- The text that follows the header lines: the records, separated by line
breaks, the last rule unterminated. -/
def journal.records : List Entry → Text
  | [] => []
  | [e] => journal.record e
  | e :: e1 :: es => journal.record e ++ '\n' :: journal.records (e1 :: es)

/-- The object on which `start()` runs its scanning loop: header written,
first line read, five lines skipped. -/
def startState (journalTxt name : Text) (o : ledger_trial) : ledger_trial :=
  let r := getline (ifstream.open journalTxt) []
  { o with debit_sum := 0, credit_sum := 0, balance_cd := 0
           filename := name, account_name := r.2, entery := [], date := [], entry := []
           in_file := skipLines 5 r.1
           out_file := r.2 ++ endl ++ setw 50 name ++ endl
             ++ setw 50 "LEDGER".toList ++ endl
             ++ dashes 86 ++ endl
             ++ "Date".toList ++ setw 20 "Particular".toList
             ++ setw 15 "Amount".toList ++ setw 10 "Date".toList
             ++ setw 20 "Particular".toList ++ setw 15 "Amount".toList ++ endl
             ++ dashes 86 ++ endl }

/-- The globals after the `ledgernames[index++] = ledger_name` of `start()`. -/
def noteLedger (name : Text) (g : Globals) : Globals :=
  { g with ledgernames := g.ledgernames.set g.index (name ++ ".txt".toList)
           index := g.index + 1 }

/-! ## Concrete journals used in the results below -/

/-- An entry whose debit account is typed as two words, which the recorder's
`getline(cin, from)` accepts. -/
def multiWordEntry : Entry :=
  ⟨"01/01/2024".toList, "Accounts Receivable".toList, 100, "Sales".toList, 100,
   "credit sale".toList⟩

/-- The journal file holding just `multiWordEntry`. -/
def multiWordJournal : Text :=
  journal.get_entries "Books".toList "01/01/2024".toList [multiWordEntry]

/-- An entry that names Cash on both sides. -/
def selfEntry : Entry :=
  ⟨"01/01/2024".toList, "Cash".toList, 100, "Cash".toList, 100, "till transfer".toList⟩

/-- The journal file holding just `selfEntry`. -/
def selfJournal : Text :=
  journal.get_entries "Books".toList "01/01/2024".toList [selfEntry]

/-- The entry of the specification's example: Cash debited, Sales credited, 100. -/
def cashSale : Entry :=
  ⟨"01/01/2024".toList, "Cash".toList, 100, "Sales".toList, 100, "first sale".toList⟩

/-- The journal file holding just `cashSale`. -/
def cashSaleJournal : Text :=
  journal.get_entries "Books".toList "01/01/2024".toList [cashSale]

/-- The file `cashSaleJournal` followed by a second record cut off after its
date and debit account. -/
def cutJournal : Text :=
  cashSaleJournal ++ endl ++ "02/01/2024".toList ++ setw 20 "Cash".toList

/-! ## Results: streams in a failed state -/

theorem sentry_of_failbit (s : ifstream) (h : s.failbit = true) : sentry s = (s, false) := by
  cases s with
  | mk b e f =>
    simp only at h
    subst h
    simp [sentry, ifstream.good]

theorem extractString_of_failbit (s : ifstream) (str : Text) (h : s.failbit = true) :
    extractString s str = (s, str) := by
  simp [extractString, sentry_of_failbit s h]

theorem extractInt_of_failbit (s : ifstream) (v : Int) (h : s.failbit = true) :
    extractInt s v = (s, v) := by
  simp [extractInt, sentry_of_failbit s h]

theorem getline_of_failbit (s : ifstream) (str : Text) (h : s.failbit = true) :
    getline s str = (s, str) := by
  cases s with
  | mk b e f =>
    simp only at h
    subst h
    simp [getline, ifstream.good]

theorem skipLines_of_failbit (n : Nat) (s : ifstream) (h : s.failbit = true) :
    skipLines n s = s := by
  induction n with
  | zero => rfl
  | succ k ih => simp [skipLines, getline_of_failbit s [] h, ih]

theorem readRecord_of_failbit (o : ledger_trial) (h : o.in_file.failbit = true) :
    o.readRecord = o := by
  simp [ledger_trial.readRecord, extractString_of_failbit _ _ h, extractInt_of_failbit _ _ h]

theorem classify_in_file (o : ledger_trial) : o.classify.in_file = o.in_file := by
  unfold ledger_trial.classify
  split
  · rfl
  · split <;> rfl

/-- Once `failbit` is set, a pass of the scanning loop leaves the stream as it
is: nothing is read and `eofbit` does not change. -/
theorem pass_in_file_of_failbit (o : ledger_trial) (h : o.in_file.failbit = true) :
    o.pass.in_file = o.in_file := by
  have h1 : o.readRecord.classify.in_file = o.in_file := by
    rw [classify_in_file, readRecord_of_failbit o h]
  simp only [ledger_trial.pass, h1]
  exact skipLines_of_failbit 3 _ h

/-- With `failbit` set and `eofbit` clear the scanning loop never exits. -/
theorem scan_of_failbit (fuel : Nat) (o : ledger_trial) (hf : o.in_file.failbit = true)
    (he : o.in_file.eofbit = false) : ledger_trial.scan fuel o = none := by
  induction fuel generalizing o with
  | zero => rfl
  | succ k ih =>
    have hp := pass_in_file_of_failbit o hf
    have he1 : o.pass.in_file.eof = false := by rw [ifstream.eof, hp]; exact he
    simp only [ledger_trial.scan, he1]
    exact ih o.pass (by rw [hp]; exact hf) (by rw [hp]; exact he)

/-! ## Results: formatting and the extraction operators -/

theorem wrap64_of_inRange (v : Int) (h : inRange v) : wrap64 v = v := by
  unfold inRange LLONG_MIN LLONG_MAX at h
  unfold wrap64
  omega

theorem wrap64_inRange (v : Int) : inRange (wrap64 v) := by
  unfold inRange LLONG_MIN LLONG_MAX wrap64
  omega

theorem wrap64_add_left (a b : Int) : wrap64 (wrap64 a + b) = wrap64 (a + b) := by
  unfold wrap64
  omega

theorem dropWhile_append_of_all (p : Char → Bool) (ws l : Text)
    (h : ∀ c ∈ ws, p c = true) : (ws ++ l).dropWhile p = l.dropWhile p := by
  induction ws with
  | nil => rfl
  | cons a t ih =>
    have ha : p a = true := h a (List.mem_cons_self a t)
    simp only [List.cons_append, List.dropWhile_cons, ha, if_true]
    exact ih (fun c hc => h c (List.mem_cons_of_mem a hc))

theorem takeWhile_append_of_all (p : Char → Bool) (ws l : Text)
    (h : ∀ c ∈ ws, p c = true) : (ws ++ l).takeWhile p = ws ++ l.takeWhile p := by
  induction ws with
  | nil => rfl
  | cons a t ih =>
    have ha : p a = true := h a (List.mem_cons_self a t)
    simp only [List.cons_append, List.takeWhile_cons, ha, if_true]
    rw [ih (fun c hc => h c (List.mem_cons_of_mem a hc))]

theorem digitChar_toNat (d : Nat) (h : d < 10) : (digitChar d).toNat = 48 + d := by
  interval_cases d <;> rfl

theorem digitChar_isDigit (d : Nat) (h : d < 10) : isDigit (digitChar d) = true := by
  interval_cases d <;> rfl

theorem digitChar_not_space (d : Nat) (h : d < 10) : isSpace (digitChar d) = false := by
  interval_cases d <;> rfl

theorem digitsValue_append_single (ds : Text) (c : Char) :
    digitsValue (ds ++ [c]) = digitsValue ds * 10 + (c.toNat - 48) := by
  simp [digitsValue, List.foldl_append]

/-- The digits written for a number: not empty, all digits, of the right
value, and no more than `k` of them for a number below `10 ^ k`. -/
theorem natTextAux_spec (fuel n : Nat) (acc : Text) (h : n < fuel) :
    ∃ ds : Text, natTextAux fuel n acc = ds ++ acc ∧ ds ≠ []
      ∧ (∀ c ∈ ds, isDigit c = true) ∧ digitsValue ds = n
      ∧ ∀ k, n < 10 ^ (k + 1) → ds.length ≤ k + 1 := by
  induction fuel generalizing n acc with
  | zero => omega
  | succ f ih =>
    by_cases hn : n < 10
    · refine ⟨[digitChar n], ?_, by simp, ?_, ?_, ?_⟩
      · simp [natTextAux, hn]
      · intro c hc
        rw [List.mem_singleton] at hc
        rw [hc]; exact digitChar_isDigit n hn
      · simp [digitsValue, digitChar_toNat n hn]
      · intro k _; simp
    · have hlt : n / 10 < f := by omega
      obtain ⟨ds, h1, _, h3, h4, h5⟩ := ih (n / 10) (digitChar (n % 10) :: acc) hlt
      have hm : n % 10 < 10 := Nat.mod_lt n (by decide)
      refine ⟨ds ++ [digitChar (n % 10)], ?_, by simp, ?_, ?_, ?_⟩
      · simp [natTextAux, hn, h1]
      · intro c hc
        rcases List.mem_append.mp hc with hc | hc
        · exact h3 c hc
        · rw [List.mem_singleton] at hc
          rw [hc]; exact digitChar_isDigit _ hm
      · rw [digitsValue_append_single, h4, digitChar_toNat _ hm]
        omega
      · intro k hk
        cases k with
        | zero => omega
        | succ j =>
          have hj : n / 10 < 10 ^ (j + 1) := by
            rw [Nat.div_lt_iff_lt_mul (by decide)]
            calc n < 10 ^ (j + 1 + 1) := hk
              _ = 10 ^ (j + 1) * 10 := by ring
          have := h5 j hj
          simp only [List.length_append, List.length_singleton]
          omega

theorem natText_spec (n : Nat) :
    natText n ≠ [] ∧ (∀ c ∈ natText n, isDigit c = true) ∧ digitsValue (natText n) = n
      ∧ ∀ k, n < 10 ^ (k + 1) → (natText n).length ≤ k + 1 := by
  obtain ⟨ds, h1, h2, h3, h4, h5⟩ := natTextAux_spec (n + 1) n [] (Nat.lt_succ_self n)
  have : natText n = ds := by simp [natText, h1]
  rw [this]
  exact ⟨h2, h3, h4, h5⟩

theorem sentry_skip (ws r : Text) (c : Char) (hws : ∀ x ∈ ws, isSpace x = true)
    (hc : isSpace c = false) :
    sentry ⟨ws ++ c :: r, false, false⟩ = (⟨c :: r, false, false⟩, true) := by
  simp [sentry, ifstream.good, dropWhile_append_of_all _ _ _ hws, List.dropWhile_cons, hc]

/-- Reading a token: leading blanks are skipped and the token is taken up to
the blank that follows it. -/
theorem extractString_token (ws tok r : Text) (c : Char) (str : Text)
    (hws : ∀ x ∈ ws, isSpace x = true) (htok : isToken tok) (hc : isSpace c = true) :
    extractString ⟨ws ++ (tok ++ c :: r), false, false⟩ str
      = (⟨c :: r, false, false⟩, tok) := by
  obtain ⟨hne, hns⟩ := htok
  cases tok with
  | nil => exact absurd rfl hne
  | cons t0 ts =>
    have h0 : isSpace t0 = false := hns t0 (List.mem_cons_self t0 ts)
    have hall : ∀ x ∈ t0 :: ts, (fun c => !isSpace c) x = true := by
      intro x hx; simp [hns x hx]
    have hd : (t0 :: (ts ++ c :: r)).dropWhile (fun c => !isSpace c) = c :: r := by
      have := dropWhile_append_of_all (fun c => !isSpace c) (t0 :: ts) (c :: r) hall
      rw [List.cons_append] at this
      rw [this]; simp [List.dropWhile_cons, hc]
    have ht : (t0 :: (ts ++ c :: r)).takeWhile (fun c => !isSpace c) = t0 :: ts := by
      have := takeWhile_append_of_all (fun c => !isSpace c) (t0 :: ts) (c :: r) hall
      rw [List.cons_append] at this
      rw [this]; simp [List.takeWhile_cons, hc]
    simp only [extractString, List.cons_append, sentry_skip ws _ t0 hws h0, hd, ht]
    rfl

theorem isDigit_ne_minus (c : Char) (h : isDigit c = true) : c ≠ '-' := by
  intro hc; rw [hc] at h; exact absurd h (by decide)

theorem isDigit_ne_plus (c : Char) (h : isDigit c = true) : c ≠ '+' := by
  intro hc; rw [hc] at h; exact absurd h (by decide)

theorem isDigit_not_space (c : Char) (h : isDigit c = true) : isSpace c = false := by
  cases hs : isSpace c with
  | false => rfl
  | true =>
    simp only [isSpace, Bool.or_eq_true, beq_iff_eq] at hs
    rcases hs with ((((hs | hs) | hs) | hs) | hs) | hs <;>
      (rw [hs] at h; exact absurd h (by decide))

theorem digits_then (ds r : Text) (c : Char) (hds : ∀ x ∈ ds, isDigit x = true)
    (hc : isDigit c = false) :
    (ds ++ c :: r).takeWhile isDigit = ds ∧ (ds ++ c :: r).dropWhile isDigit = c :: r := by
  rw [takeWhile_append_of_all _ _ _ hds, dropWhile_append_of_all _ _ _ hds]
  simp [List.takeWhile_cons, List.dropWhile_cons, hc]

/-- Reading back a written `long long`: leading blanks are skipped and the
value written is the value stored, the stream staying good. -/
theorem extractInt_showInt (ws r : Text) (c : Char) (v v0 : Int)
    (hws : ∀ x ∈ ws, isSpace x = true) (hv : inRange v) (hc : isDigit c = false) :
    extractInt ⟨ws ++ (showInt v ++ c :: r), false, false⟩ v0
      = (⟨c :: r, false, false⟩, v) := by
  unfold inRange LLONG_MIN LLONG_MAX at hv
  by_cases hneg : v < 0
  · obtain ⟨hne, hdig, hval, _⟩ := natText_spec v.natAbs
    obtain ⟨ht, hd⟩ := digits_then (natText v.natAbs) r c hdig hc
    have hshow : showInt v = '-' :: natText v.natAbs := by simp [showInt, hneg]
    have hnat : ((v.natAbs : Nat) : Int) = -v := by omega
    have hemp : (natText v.natAbs).isEmpty = false := by
      cases h : natText v.natAbs with
      | nil => exact absurd h hne
      | cons _ _ => rfl
    rw [hshow]
    simp only [extractInt, List.cons_append, sentry_skip ws _ '-' hws (by decide)]
    simp only [List.head?_cons, beq_self_eq_true, Bool.true_or, if_true, List.tail_cons,
      ht, hd, hval, hemp, hnat, LLONG_MAX, LLONG_MIN]
    have h1 : ¬ ((9223372036854775807 : Int) < v) := by omega
    have h2 : ¬ (v < (-9223372036854775808 : Int)) := by omega
    simp [h1, h2]
  · obtain ⟨hne, hdig, hval, _⟩ := natText_spec v.toNat
    have hshow : showInt v = natText v.toNat := by simp [showInt, hneg]
    have hnat : ((v.toNat : Nat) : Int) = v := by omega
    rw [hshow]
    cases hnt : natText v.toNat with
    | nil => exact absurd hnt hne
    | cons d ds =>
      rw [hnt] at hdig hval
      have hd0 : isDigit d = true := hdig d (List.mem_cons_self d ds)
      obtain ⟨ht, hd⟩ := digits_then (d :: ds) r c hdig hc
      rw [List.cons_append] at ht hd
      have hm : (some d == some '-') = false := by
        simp [isDigit_ne_minus d hd0]
      have hp : (some d == some '+') = false := by
        simp [isDigit_ne_plus d hd0]
      simp only [extractInt, List.cons_append, sentry_skip ws _ d hws (isDigit_not_space d hd0)]
      simp only [List.head?_cons, hm, hp, Bool.or_self, Bool.false_eq_true, if_false,
        ht, hd, hval, hnat, LLONG_MAX, LLONG_MIN, List.isEmpty_cons]
      have h1 : ¬ ((9223372036854775807 : Int) < v) := by omega
      have h2 : ¬ (v < (-9223372036854775808 : Int)) := by omega
      simp [h1, h2]

/-- Reading a line that is terminated. -/
theorem getline_line (line r str : Text) (h : '\n' ∉ line) :
    getline ⟨line ++ '\n' :: r, false, false⟩ str = (⟨r, false, false⟩, line) := by
  have hall : ∀ x ∈ line, (fun c => c != '\n') x = true := by
    intro x hx
    have : x ≠ '\n' := fun hxn => h (hxn ▸ hx)
    simp [this]
  simp [getline, ifstream.good, dropWhile_append_of_all _ _ _ hall,
    takeWhile_append_of_all _ _ _ hall, List.dropWhile_cons, List.takeWhile_cons]

/-- Reading a last line that is not terminated: `eofbit` is set, `failbit`
is not. -/
theorem getline_last (line str : Text) (h : '\n' ∉ line) (hne : line ≠ []) :
    getline ⟨line, false, false⟩ str = (⟨[], true, false⟩, line) := by
  have hall : ∀ x ∈ line, (fun c => c != '\n') x = true := by
    intro x hx
    have : x ≠ '\n' := fun hxn => h (hxn ▸ hx)
    simp [this]
  have hd : line.dropWhile (fun c => c != '\n') = [] := by
    have := dropWhile_append_of_all (fun c => c != '\n') line [] hall
    simpa using this
  have hemp : line.isEmpty = false := by
    cases line with
    | nil => exact absurd rfl hne
    | cons _ _ => rfl
  simp [getline, ifstream.good, hd, hemp]

theorem showInt_length (v : Int) (hv : inRange v) : (showInt v).length ≤ 20 := by
  unfold inRange LLONG_MIN LLONG_MAX at hv
  by_cases hneg : v < 0
  · have h := (natText_spec v.natAbs).2.2.2 18 (by norm_num; omega)
    simp only [showInt, hneg, if_true, List.length_cons]
    omega
  · have h := (natText_spec v.toNat).2.2.2 18 (by norm_num; omega)
    simp only [showInt, hneg, if_false]
    omega

theorem replicate_space_all (k : Nat) : ∀ x ∈ List.replicate k ' ', isSpace x = true := by
  intro x hx
  rw [List.eq_of_mem_replicate hx]
  rfl

theorem extractString_token_pad (ws tok r str : Text) (k : Nat)
    (hws : ∀ x ∈ ws, isSpace x = true) (htok : isToken tok) (hk : 0 < k) :
    extractString ⟨ws ++ (tok ++ (List.replicate k ' ' ++ r)), false, false⟩ str
      = (⟨List.replicate k ' ' ++ r, false, false⟩, tok) := by
  obtain ⟨j, rfl⟩ : ∃ j, k = j + 1 := ⟨k - 1, by omega⟩
  rw [List.replicate_succ, List.cons_append]
  exact extractString_token ws tok _ ' ' str hws htok rfl

/-- The reads of one pass on a well-formed record: the five fields are the
entry's, and the stream stands at the line break ending the credit line. -/
theorem readRecord_entry (o : ledger_trial) (e : Entry) (rest : Text) (hwf : e.wellFormed)
    (hin : o.in_file = ⟨journal.debit e ++ (journal.credit e ++ rest), false, false⟩) :
    o.readRecord = (o.withFields e).withStream ⟨'\n' :: rest, false, false⟩ := by
  obtain ⟨hdate, hfrom, hlen, hto, ha, hb, _⟩ := hwf
  have la := showInt_length e.debit_amount ha
  have lb := showInt_length e.credit_amount hb
  have hbar : isToken ['|'] := by decide
  have hto2 : isToken ['t', 'o'] := by decide
  have hnl : isDigit '\n' = false := by decide
  -- the record, bracketed the way the reads consume it
  have htxt : journal.debit e ++ (journal.credit e ++ rest)
      = [] ++ (e.date ++ (List.replicate (20 - e.from_.length) ' ' ++ (e.from_
          ++ (List.replicate (70 - (showInt e.debit_amount).length) ' '
          ++ (showInt e.debit_amount ++ '\n' :: (List.replicate 9 ' ' ++ (['|']
          ++ (List.replicate 37 ' ' ++ (['t', 'o'] ++ ' ' :: (e.to_
          ++ (List.replicate (50 - (showInt e.credit_amount).length) ' '
          ++ (showInt e.credit_amount ++ '\n' :: rest)))))))))))) := by
    simp [journal.debit, journal.credit, setw, endl, List.append_assoc]
  have h1 := extractString_token_pad [] e.date
    (e.from_ ++ (List.replicate (70 - (showInt e.debit_amount).length) ' '
          ++ (showInt e.debit_amount ++ '\n' :: (List.replicate 9 ' ' ++ (['|']
          ++ (List.replicate 37 ' ' ++ (['t', 'o'] ++ ' ' :: (e.to_
          ++ (List.replicate (50 - (showInt e.credit_amount).length) ' '
          ++ (showInt e.credit_amount ++ '\n' :: rest))))))))))
    o.date (20 - e.from_.length) (by simp) hdate (by omega)
  have h2 := extractString_token_pad (List.replicate (20 - e.from_.length) ' ') e.from_
    (showInt e.debit_amount ++ '\n' :: (List.replicate 9 ' ' ++ (['|']
          ++ (List.replicate 37 ' ' ++ (['t', 'o'] ++ ' ' :: (e.to_
          ++ (List.replicate (50 - (showInt e.credit_amount).length) ' '
          ++ (showInt e.credit_amount ++ '\n' :: rest))))))))
    o.entery (70 - (showInt e.debit_amount).length) (replicate_space_all _) hfrom (by omega)
  have h3 := extractInt_showInt (List.replicate (70 - (showInt e.debit_amount).length) ' ')
    (List.replicate 9 ' ' ++ (['|']
          ++ (List.replicate 37 ' ' ++ (['t', 'o'] ++ ' ' :: (e.to_
          ++ (List.replicate (50 - (showInt e.credit_amount).length) ' '
          ++ (showInt e.credit_amount ++ '\n' :: rest)))))))
    '\n' e.debit_amount o.amount (replicate_space_all _) ha hnl
  have h4 := extractString_token_pad ('\n' :: List.replicate 9 ' ') ['|']
    (['t', 'o'] ++ ' ' :: (e.to_
          ++ (List.replicate (50 - (showInt e.credit_amount).length) ' '
          ++ (showInt e.credit_amount ++ '\n' :: rest))))
    [] 37 (by decide) hbar (by decide)
  have h5 := extractString_token (List.replicate 37 ' ') ['t', 'o']
    (e.to_ ++ (List.replicate (50 - (showInt e.credit_amount).length) ' '
          ++ (showInt e.credit_amount ++ '\n' :: rest)))
    ' ' ['|'] (replicate_space_all _) hto2 rfl
  have h6 := extractString_token_pad [' '] e.to_
    (showInt e.credit_amount ++ '\n' :: rest)
    o.entry (50 - (showInt e.credit_amount).length) (by decide) hto (by omega)
  have h7 := extractInt_showInt (List.replicate (50 - (showInt e.credit_amount).length) ' ')
    rest '\n' e.credit_amount o.amount1 (replicate_space_all _) hb hnl
  simp only [List.cons_append, List.nil_append] at h1 h2 h3 h4 h5 h6 h7
  simp only [ledger_trial.readRecord, hin, htxt, List.cons_append, List.nil_append,
    h1, h2, h3, h4, h5, h6, h7]
  rfl

theorem nl_not_mem_setw (w : Nat) (t : Text) (h : '\n' ∉ t) : '\n' ∉ setw w t := by
  intro hm
  rcases List.mem_append.mp hm with hm | hm
  · exact absurd (List.eq_of_mem_replicate hm) (by decide)
  · exact h hm

theorem nl_not_mem_dashes (n : Nat) : '\n' ∉ dashes n := by
  intro hm
  exact absurd (List.eq_of_mem_replicate hm) (by decide)

theorem dashes_ne_nil : dashes 125 ≠ [] := by decide

/-- The three `getline` calls closing a pass, on the last record: the rule
has no line break after it, so the third call sets `eofbit`. -/
theorem skipLines_trailer_last (e : Entry) (h : '\n' ∉ e.disc) :
    skipLines 3 ⟨'\n' :: (journal.description e ++ dashes 125), false, false⟩
      = ⟨[], true, false⟩ := by
  have hline : '\n' ∉ setw 11 "|(".toList ++ setw 50 e.disc ++ ")".toList := by
    intro hm
    rcases List.mem_append.mp hm with hm | hm
    · rcases List.mem_append.mp hm with hm | hm
      · exact absurd hm (by decide)
      · exact nl_not_mem_setw 50 e.disc h hm
    · exact absurd hm (by decide)
  have h1 := getline_line [] (journal.description e ++ dashes 125) [] (by simp)
  have h2 := getline_line (setw 11 "|(".toList ++ setw 50 e.disc ++ ")".toList)
    (dashes 125) [] hline
  have h3 := getline_last (dashes 125) [] (nl_not_mem_dashes 125) dashes_ne_nil
  have hd : journal.description e ++ dashes 125
      = (setw 11 "|(".toList ++ setw 50 e.disc ++ ")".toList) ++ '\n' :: dashes 125 := by
    simp [journal.description, endl, List.append_assoc]
  rw [List.nil_append] at h1
  rw [← hd] at h2
  simp only [skipLines, h1, h2, h3]

/-- The three `getline` calls closing a pass, when another record follows. -/
theorem skipLines_trailer_more (e : Entry) (r : Text) (h : '\n' ∉ e.disc) :
    skipLines 3 ⟨'\n' :: (journal.description e ++ (dashes 125 ++ '\n' :: r)), false, false⟩
      = ⟨r, false, false⟩ := by
  have hline : '\n' ∉ setw 11 "|(".toList ++ setw 50 e.disc ++ ")".toList := by
    intro hm
    rcases List.mem_append.mp hm with hm | hm
    · rcases List.mem_append.mp hm with hm | hm
      · exact absurd hm (by decide)
      · exact nl_not_mem_setw 50 e.disc h hm
    · exact absurd hm (by decide)
  have h1 := getline_line [] (journal.description e ++ (dashes 125 ++ '\n' :: r)) [] (by simp)
  have h2 := getline_line (setw 11 "|(".toList ++ setw 50 e.disc ++ ")".toList)
    (dashes 125 ++ '\n' :: r) [] hline
  have h3 := getline_line (dashes 125) r [] (nl_not_mem_dashes 125)
  have hd : journal.description e ++ (dashes 125 ++ '\n' :: r)
      = (setw 11 "|(".toList ++ setw 50 e.disc ++ ")".toList)
          ++ '\n' :: (dashes 125 ++ '\n' :: r) := by
    simp [journal.description, endl, List.append_assoc]
  rw [List.nil_append] at h1
  rw [← hd] at h2
  simp only [skipLines, h1, h2, h3]

theorem classify_withStream (o : ledger_trial) (f : ifstream) :
    (o.withStream f).classify = o.classify.withStream f := by
  unfold ledger_trial.classify ledger_trial.withStream
  split
  · rfl
  · split <;> rfl

theorem post_withStream (o : ledger_trial) (f : ifstream) (e : Entry) :
    (o.withStream f).post e = (o.post e).withStream f :=
  classify_withStream (o.withFields e) f

theorem pass_eq (o : ledger_trial) :
    o.pass = o.readRecord.classify.withStream (skipLines 3 o.readRecord.classify.in_file) :=
  rfl

theorem withStream_in_file (o : ledger_trial) (f : ifstream) : (o.withStream f).in_file = f :=
  rfl

theorem withStream_withStream (o : ledger_trial) (f g : ifstream) :
    (o.withStream f).withStream g = o.withStream g :=
  rfl

/-- A pass over the last record, well-formed: the fields stored and the
record classified, the stream at its end with `eofbit` set. -/
theorem pass_last (o : ledger_trial) (e : Entry) (hwf : e.wellFormed)
    (hin : o.in_file = ⟨journal.records [e], false, false⟩) :
    o.pass = (o.post e).withStream ⟨[], true, false⟩ := by
  have hr := readRecord_entry o e (journal.description e ++ dashes 125) hwf hin
  have ht := skipLines_trailer_last e hwf.2.2.2.2.2.2
  rw [pass_eq, hr, classify_withStream, withStream_in_file, ht, withStream_withStream]
  rfl

/-- A pass over a well-formed record that is followed by others: the stream
then stands at the start of the next record, still good. -/
theorem pass_more (o : ledger_trial) (e e1 : Entry) (es : List Entry) (hwf : e.wellFormed)
    (hin : o.in_file = ⟨journal.records (e :: e1 :: es), false, false⟩) :
    o.pass = (o.post e).withStream ⟨journal.records (e1 :: es), false, false⟩ := by
  have hin2 : o.in_file = ⟨journal.debit e ++ (journal.credit e ++ (journal.description e
      ++ (dashes 125 ++ '\n' :: journal.records (e1 :: es)))), false, false⟩ := by
    rw [hin]; simp [journal.records, journal.record, List.append_assoc]
  have hr := readRecord_entry o e _ hwf hin2
  have ht := skipLines_trailer_more e (journal.records (e1 :: es)) hwf.2.2.2.2.2.2
  rw [pass_eq, hr, classify_withStream, withStream_in_file, ht, withStream_withStream]
  rfl

theorem foldl_post_withStream (es : List Entry) (o : ledger_trial) (f : ifstream) :
    es.foldl ledger_trial.post (o.withStream f) = (es.foldl ledger_trial.post o).withStream f := by
  induction es generalizing o with
  | nil => rfl
  | cons e t ih => simp only [List.foldl_cons, post_withStream, ih]

theorem records_cons_eq (e : Entry) (es : List Entry) :
    ∃ rest, journal.records (e :: es) = journal.debit e ++ (journal.credit e ++ rest) := by
  cases es with
  | nil => exact ⟨journal.description e ++ dashes 125, rfl⟩
  | cons e1 t =>
    exact ⟨journal.description e ++ (dashes 125 ++ '\n' :: journal.records (e1 :: t)), by
      simp [journal.records, journal.record, List.append_assoc]⟩

theorem readRecord_parsed (o : ledger_trial) (e : Entry) (es : List Entry)
    (hwf : e.wellFormed)
    (hin : o.in_file = ⟨journal.records (e :: es), false, false⟩) :
    o.readRecord.parsed = e.fields := by
  obtain ⟨rest, hrest⟩ := records_cons_eq e es
  rw [hrest] at hin
  rw [readRecord_entry o e rest hwf hin]
  rfl

/-- The scanning loop on the records of well-formed entries: it ends after
one pass for each entry, having stored and classified each in turn. -/
theorem scan_records (es : List Entry) (e : Entry) (o : ledger_trial) (fuel : Nat)
    (hwf : ∀ x ∈ e :: es, x.wellFormed)
    (hin : o.in_file = ⟨journal.records (e :: es), false, false⟩)
    (hfuel : es.length < fuel) :
    ledger_trial.scan fuel o
      = some (((e :: es).foldl ledger_trial.post o).withStream ⟨[], true, false⟩) := by
  induction es generalizing e o fuel with
  | nil =>
    obtain ⟨k, rfl⟩ : ∃ k, fuel = k + 1 := ⟨fuel - 1, by simp at hfuel; omega⟩
    have hp := pass_last o e (hwf e (List.mem_cons_self e [])) hin
    have he : o.pass.in_file.eof = true := by rw [hp]; rfl
    rw [ledger_trial.scan, if_pos he, hp]
    rfl
  | cons e1 t ih =>
    obtain ⟨k, rfl⟩ : ∃ k, fuel = k + 1 := ⟨fuel - 1, by simp at hfuel; omega⟩
    have hp := pass_more o e e1 t (hwf e (List.mem_cons_self e _)) hin
    have he : o.pass.in_file.eof = false := by rw [hp]; rfl
    have hin1 : o.pass.in_file = ⟨journal.records (e1 :: t), false, false⟩ := by rw [hp]; rfl
    have hk : t.length < k := by simp at hfuel; omega
    have := ih e1 o.pass k (fun x hx => hwf x (List.mem_cons_of_mem e hx)) hin1 hk
    rw [ledger_trial.scan, if_neg (by simp [he]), this, hp, foldl_post_withStream]
    rfl

/-- The tuples read by the scanning loop on the records of well-formed
entries are the fields of the entries, one tuple for each entry, in order. -/
theorem parses_records (es : List Entry) (e : Entry) (o : ledger_trial) (fuel : Nat)
    (hwf : ∀ x ∈ e :: es, x.wellFormed)
    (hin : o.in_file = ⟨journal.records (e :: es), false, false⟩)
    (hfuel : es.length < fuel) :
    ledger_trial.parses fuel o = some ((e :: es).map Entry.fields) := by
  induction es generalizing e o fuel with
  | nil =>
    obtain ⟨k, rfl⟩ : ∃ k, fuel = k + 1 := ⟨fuel - 1, by simp at hfuel; omega⟩
    have hp := pass_last o e (hwf e (List.mem_cons_self e [])) hin
    have he : o.pass.in_file.eof = true := by rw [hp]; rfl
    have hr := readRecord_parsed o e [] (hwf e (List.mem_cons_self e [])) hin
    rw [ledger_trial.parses, if_pos he, hr]
    rfl
  | cons e1 t ih =>
    obtain ⟨k, rfl⟩ : ∃ k, fuel = k + 1 := ⟨fuel - 1, by simp at hfuel; omega⟩
    have hp := pass_more o e e1 t (hwf e (List.mem_cons_self e _)) hin
    have he : o.pass.in_file.eof = false := by rw [hp]; rfl
    have hin1 : o.pass.in_file = ⟨journal.records (e1 :: t), false, false⟩ := by rw [hp]; rfl
    have hk : t.length < k := by simp at hfuel; omega
    have hr := readRecord_parsed o e (e1 :: t) (hwf e (List.mem_cons_self e _)) hin
    have := ih e1 o.pass k (fun x hx => hwf x (List.mem_cons_of_mem e hx)) hin1 hk
    rw [ledger_trial.parses, if_neg (by simp [he]), this, hr]
    rfl

theorem passes_eq_records (e : Entry) (es : List Entry) :
    journal.passes (e :: es) = '\n' :: journal.records (e :: es) := by
  induction es generalizing e with
  | nil =>
    simp [journal.passes, journal.pass, journal.records, journal.record, endl,
      List.append_assoc]
  | cons e1 t ih =>
    have h := ih e1
    rw [journal.passes, h]
    simp [journal.pass, journal.records, journal.record, endl, List.append_assoc]

theorem startState_in_file_eq (journalTxt name : Text) (o : ledger_trial) :
    (startState journalTxt name o).in_file
      = skipLines 5 (getline (ifstream.open journalTxt) []).1 :=
  rfl

/-- After the first line and the five skipped lines of a journal written by
the recorder, the stream of `start()` stands at the first record. -/
theorem startState_in_file (jname jdate name : Text) (e : Entry) (es : List Entry)
    (o : ledger_trial) (hn : '\n' ∉ jname) (hd : '\n' ∉ jdate) :
    (startState (journal.get_entries jname jdate (e :: es)) name o).in_file
      = ⟨journal.records (e :: es), false, false⟩ := by
  have hJ : journal.get_entries jname jdate (e :: es)
      = setw 50 jname ++ '\n' :: (setw 50 "JOURNAL".toList ++ '\n' :: (setw 50 jdate
        ++ '\n' :: (dashes 125 ++ '\n' :: ((setw 10 "DATE|".toList
        ++ setw 25 "DESCRIPTION".toList ++ setw 50 "|DEBIT".toList
        ++ setw 20 "|CREDIT".toList) ++ '\n' :: (dashes 125
        ++ '\n' :: journal.records (e :: es)))))) := by
    simp only [journal.get_entries, journal.display_logo, passes_eq_records, endl,
      List.append_assoc, List.cons_append, List.nil_append]
  have g1 := getline_line (setw 50 jname) (setw 50 "JOURNAL".toList ++ '\n' :: (setw 50 jdate
        ++ '\n' :: (dashes 125 ++ '\n' :: ((setw 10 "DATE|".toList
        ++ setw 25 "DESCRIPTION".toList ++ setw 50 "|DEBIT".toList
        ++ setw 20 "|CREDIT".toList) ++ '\n' :: (dashes 125
        ++ '\n' :: journal.records (e :: es)))))) [] (nl_not_mem_setw 50 jname hn)
  have g2 := getline_line (setw 50 "JOURNAL".toList) (setw 50 jdate
        ++ '\n' :: (dashes 125 ++ '\n' :: ((setw 10 "DATE|".toList
        ++ setw 25 "DESCRIPTION".toList ++ setw 50 "|DEBIT".toList
        ++ setw 20 "|CREDIT".toList) ++ '\n' :: (dashes 125
        ++ '\n' :: journal.records (e :: es))))) [] (by decide)
  have g3 := getline_line (setw 50 jdate) (dashes 125 ++ '\n' :: ((setw 10 "DATE|".toList
        ++ setw 25 "DESCRIPTION".toList ++ setw 50 "|DEBIT".toList
        ++ setw 20 "|CREDIT".toList) ++ '\n' :: (dashes 125
        ++ '\n' :: journal.records (e :: es)))) [] (nl_not_mem_setw 50 jdate hd)
  have g4 := getline_line (dashes 125) ((setw 10 "DATE|".toList
        ++ setw 25 "DESCRIPTION".toList ++ setw 50 "|DEBIT".toList
        ++ setw 20 "|CREDIT".toList) ++ '\n' :: (dashes 125
        ++ '\n' :: journal.records (e :: es))) [] (nl_not_mem_dashes 125)
  have g5 := getline_line (setw 10 "DATE|".toList
        ++ setw 25 "DESCRIPTION".toList ++ setw 50 "|DEBIT".toList
        ++ setw 20 "|CREDIT".toList) (dashes 125
        ++ '\n' :: journal.records (e :: es)) [] (by decide)
  have g6 := getline_line (dashes 125) (journal.records (e :: es)) [] (nl_not_mem_dashes 125)
  rw [startState_in_file_eq, hJ]
  simp only [ifstream.open, skipLines, g1, g2, g3, g4, g5, g6]

theorem post_filename (o : ledger_trial) (e : Entry) : (o.post e).filename = o.filename := by
  unfold ledger_trial.post ledger_trial.classify ledger_trial.withFields
  split
  · rfl
  · split <;> rfl

theorem post_debit_sum (o : ledger_trial) (e : Entry) :
    (o.post e).debit_sum
      = if e.from_ = o.filename then wrap64 (o.debit_sum + e.debit_amount) else o.debit_sum := by
  unfold ledger_trial.post ledger_trial.classify ledger_trial.withFields
  by_cases h1 : e.from_ = o.filename
  · simp [h1]
  · by_cases h2 : e.to_ = o.filename <;> simp [h1, h2]

theorem post_credit_sum (o : ledger_trial) (e : Entry) :
    (o.post e).credit_sum
      = if e.to_ = o.filename ∧ e.from_ ≠ o.filename
        then wrap64 (o.credit_sum + e.credit_amount) else o.credit_sum := by
  unfold ledger_trial.post ledger_trial.classify ledger_trial.withFields
  by_cases h1 : e.from_ = o.filename
  · simp [h1]
  · by_cases h2 : e.to_ = o.filename <;> simp [h1, h2]

/-- The sums accumulated by classifying a list of entries in turn. -/
theorem foldl_post_sums (es : List Entry) (o : ledger_trial)
    (hd : inRange o.debit_sum) (hc : inRange o.credit_sum) :
    (es.foldl ledger_trial.post o).filename = o.filename
    ∧ (es.foldl ledger_trial.post o).debit_sum
        = wrap64 (o.debit_sum + debitTotal o.filename es)
    ∧ (es.foldl ledger_trial.post o).credit_sum
        = wrap64 (o.credit_sum + creditOnlyTotal o.filename es) := by
  induction es generalizing o with
  | nil =>
    simp [debitTotal, creditOnlyTotal, wrap64_of_inRange _ hd, wrap64_of_inRange _ hc]
  | cons e t ih =>
    have hd1 : inRange (o.post e).debit_sum := by
      rw [post_debit_sum]; split
      · exact wrap64_inRange _
      · exact hd
    have hc1 : inRange (o.post e).credit_sum := by
      rw [post_credit_sum]; split
      · exact wrap64_inRange _
      · exact hc
    obtain ⟨h1, h2, h3⟩ := ih (o.post e) hd1 hc1
    rw [post_filename] at h1 h2 h3
    refine ⟨by rw [List.foldl_cons, h1], ?_, ?_⟩
    · rw [List.foldl_cons, h2, post_debit_sum]
      by_cases hf : e.from_ = o.filename
      · simp only [hf, if_true, debitTotal, List.filter_cons, decide_True, List.map_cons,
          List.sum_cons]
        rw [wrap64_add_left, add_assoc]
      · simp only [hf, if_false, debitTotal, List.filter_cons, decide_False]
        simp
    · rw [List.foldl_cons, h3, post_credit_sum]
      by_cases hf : e.to_ = o.filename ∧ e.from_ ≠ o.filename
      · simp only [hf, if_true, creditOnlyTotal, List.filter_cons, decide_True, List.map_cons,
          List.sum_cons]
        simp only [and_self, ne_eq, not_false_eq_true, if_true, hf.1, hf.2, decide_True,
          List.map_cons, List.sum_cons]
        rw [wrap64_add_left, add_assoc]
      · simp only [hf, if_false, creditOnlyTotal, List.filter_cons, decide_False]
        simp

theorem start_eq (fuel : Nat) (journalTxt name : Text) (o : ledger_trial) (g : Globals) :
    o.start fuel journalTxt name g =
      (ledger_trial.scan fuel (startState journalTxt name o)).map
        (fun o1 => o1.total.trial (noteLedger name g)) := by
  simp only [ledger_trial.start, ledger_trial.get_entries, startState, noteLedger]
  cases ledger_trial.scan fuel _ <;> rfl

theorem scan_none_of_pass (o : ledger_trial) (hf : o.pass.in_file.failbit = true)
    (he : o.pass.in_file.eofbit = false) (fuel : Nat) : ledger_trial.scan fuel o = none := by
  cases fuel with
  | zero => rfl
  | succ k =>
    have he1 : o.pass.in_file.eof = false := he
    simp only [ledger_trial.scan, he1]
    exact scan_of_failbit k o.pass hf he

theorem total_debit_sum (o : ledger_trial) : o.total.debit_sum = o.debit_sum := by
  unfold ledger_trial.total; split <;> rfl

theorem total_credit_sum (o : ledger_trial) : o.total.credit_sum = o.credit_sum := by
  unfold ledger_trial.total; split <;> rfl

theorem trial_fst_debit_sum (o : ledger_trial) (g : Globals) :
    (o.trial g).1.debit_sum = o.debit_sum := by
  unfold ledger_trial.trial; split <;> rfl

theorem trial_fst_credit_sum (o : ledger_trial) (g : Globals) :
    (o.trial g).1.credit_sum = o.credit_sum := by
  unfold ledger_trial.trial; split <;> rfl

theorem trial_fst_flag (o : ledger_trial) (g : Globals) : (o.trial g).1.flag = o.flag := by
  unfold ledger_trial.trial; split <;> rfl

theorem trial_fst_balance_cd (o : ledger_trial) (g : Globals) :
    (o.trial g).1.balance_cd = o.balance_cd := by
  unfold ledger_trial.trial; split <;> rfl

/-- A run of `start()` on a journal written by the recorder from well-formed
entries returns, once the passes allowed are as many as the entries, with the
entries classified in turn, then `total()` and `trial()`. -/
theorem start_wellFormed (jname jdate name : Text) (e : Entry) (es : List Entry)
    (o : ledger_trial) (g : Globals) (fuel : Nat) (hn : '\n' ∉ jname) (hd : '\n' ∉ jdate)
    (hwf : ∀ x ∈ e :: es, x.wellFormed) (hfuel : es.length < fuel) :
    o.start fuel (journal.get_entries jname jdate (e :: es)) name g
      = some ((((e :: es).foldl ledger_trial.post
          (startState (journal.get_entries jname jdate (e :: es)) name o)).withStream
            ⟨[], true, false⟩).total.trial (noteLedger name g)) := by
  rw [start_eq, scan_records es e _ fuel hwf (startState_in_file jname jdate name e es o hn hd)
    hfuel]
  rfl

theorem startState_debit_sum (journalTxt name : Text) (o : ledger_trial) :
    (startState journalTxt name o).debit_sum = 0 :=
  rfl

theorem startState_credit_sum (journalTxt name : Text) (o : ledger_trial) :
    (startState journalTxt name o).credit_sum = 0 :=
  rfl

theorem startState_filename (journalTxt name : Text) (o : ledger_trial) :
    (startState journalTxt name o).filename = name :=
  rfl

theorem inRange_zero : inRange 0 := by decide

theorem withStream_debit_sum (o : ledger_trial) (f : ifstream) :
    (o.withStream f).debit_sum = o.debit_sum :=
  rfl

theorem withStream_credit_sum (o : ledger_trial) (f : ifstream) :
    (o.withStream f).credit_sum = o.credit_sum :=
  rfl

theorem withStream_filename (o : ledger_trial) (f : ifstream) :
    (o.withStream f).filename = o.filename :=
  rfl

/-- The sums a run of `start()` ends with on such a journal. -/
theorem start_wellFormed_sums (jname jdate name : Text) (es : List Entry)
    (o : ledger_trial) (g : Globals) (fuel : Nat) (hn : '\n' ∉ jname) (hd : '\n' ∉ jdate)
    (hne : es ≠ []) (hwf : ∀ x ∈ es, x.wellFormed) (hfuel : es.length ≤ fuel) :
    ∃ r, o.start fuel (journal.get_entries jname jdate es) name g = some r
      ∧ r.1.debit_sum = wrap64 (debitTotal name es)
      ∧ r.1.credit_sum = wrap64 (creditOnlyTotal name es) := by
  cases es with
  | nil => exact absurd rfl hne
  | cons e t =>
    have hlt : t.length < fuel := by simp at hfuel; omega
    have hs := foldl_post_sums (e :: t)
      (startState (journal.get_entries jname jdate (e :: t)) name o)
      (by rw [startState_debit_sum]; exact inRange_zero)
      (by rw [startState_credit_sum]; exact inRange_zero)
    rw [startState_debit_sum, startState_credit_sum, startState_filename, zero_add,
      zero_add] at hs
    refine ⟨_, start_wellFormed jname jdate name e t o g fuel hn hd hwf hlt, ?_, ?_⟩
    · rw [trial_fst_debit_sum, total_debit_sum, withStream_debit_sum]
      exact hs.2.1
    · rw [trial_fst_credit_sum, total_credit_sum, withStream_credit_sum]
      exact hs.2.2

theorem parses_head (fuel : Nat) (o : ledger_trial) (l : List Parsed)
    (h : ledger_trial.parses fuel o = some l) : l.head? = some o.readRecord.parsed := by
  cases fuel with
  | zero => exact absurd h (by simp [ledger_trial.parses])
  | succ k =>
    rw [ledger_trial.parses] at h
    split at h
    · cases h; rfl
    · cases hp : ledger_trial.parses k o.pass with
      | none => rw [hp] at h; exact absurd h (by simp)
      | some l1 => rw [hp] at h; cases h; rfl

theorem trial_snd_debit (o : ledger_trial) (g : Globals) :
    (o.trial g).2.trial_debit_sum
      = if o.flag = true then wrap64 (g.trial_debit_sum + o.balance_cd)
        else g.trial_debit_sum := by
  unfold ledger_trial.trial; split <;> rfl

theorem trial_snd_credit (o : ledger_trial) (g : Globals) :
    (o.trial g).2.trial_credit_sum
      = if o.flag = true then g.trial_credit_sum
        else wrap64 (g.trial_credit_sum + o.balance_cd) := by
  unfold ledger_trial.trial; split <;> rfl

/-- What a returned run of `start()` did to the trial totals. -/
theorem start_trial_sums (fuel : Nat) (journalTxt name : Text) (o o1 : ledger_trial)
    (g g1 : Globals) (h : o.start fuel journalTxt name g = some (o1, g1)) :
    g1.trial_debit_sum
        = (if o1.flag = true then wrap64 (g.trial_debit_sum + o1.balance_cd)
           else g.trial_debit_sum)
    ∧ g1.trial_credit_sum
        = (if o1.flag = true then g.trial_credit_sum
           else wrap64 (g.trial_credit_sum + o1.balance_cd)) := by
  rw [start_eq] at h
  cases hs : ledger_trial.scan fuel (startState journalTxt name o) with
  | none => rw [hs] at h; exact absurd h (by simp)
  | some x =>
    rw [hs] at h
    simp only [Option.map_some', Option.some.injEq] at h
    have h1 : o1 = (x.total.trial (noteLedger name g)).1 := by rw [h]
    have h2 : g1 = (x.total.trial (noteLedger name g)).2 := by rw [h]
    rw [h1, h2, trial_fst_flag, trial_fst_balance_cd, trial_snd_debit, trial_snd_credit]
    exact ⟨rfl, rfl⟩

/-- The trial totals after a sequence of returned runs. -/
theorem ledgerRuns_trial (fuel : Nat) (journalTxt : Text) (runs : List (ledger_trial × Text))
    (g : Globals) (os : List ledger_trial) (g1 : Globals)
    (hd : inRange g.trial_debit_sum) (hc : inRange g.trial_credit_sum)
    (h : ledgerRuns fuel journalTxt runs g = some (os, g1)) :
    os.length = runs.length
    ∧ g1.trial_debit_sum = wrap64 (g.trial_debit_sum + debitSide os)
    ∧ g1.trial_credit_sum = wrap64 (g.trial_credit_sum + creditSide os) := by
  induction runs generalizing g os g1 with
  | nil =>
    simp only [ledgerRuns, Option.some.injEq, Prod.mk.injEq] at h
    obtain ⟨h1, h2⟩ := h
    subst h1 h2
    simp [debitSide, creditSide, wrap64_of_inRange _ hd, wrap64_of_inRange _ hc]
  | cons run rest ih =>
    obtain ⟨o, name⟩ := run
    rw [ledgerRuns] at h
    cases hs : o.start fuel journalTxt name g with
    | none => rw [hs] at h; exact absurd h (by simp)
    | some r =>
      obtain ⟨o1, g2⟩ := r
      rw [hs] at h
      dsimp only at h
      cases hr : ledgerRuns fuel journalTxt rest g2 with
      | none => rw [hr] at h; exact absurd h (by simp)
      | some r2 =>
        obtain ⟨os2, g3⟩ := r2
        rw [hr] at h
        dsimp only at h
        simp only [Option.some.injEq, Prod.mk.injEq] at h
        obtain ⟨h1, h2⟩ := h
        subst h1 h2
        obtain ⟨t1, t2⟩ := start_trial_sums fuel journalTxt name o o1 g g2 hs
        have hd2 : inRange g2.trial_debit_sum := by
          rw [t1]; split
          · exact wrap64_inRange _
          · exact hd
        have hc2 : inRange g2.trial_credit_sum := by
          rw [t2]; split
          · exact hc
          · exact wrap64_inRange _
        obtain ⟨i1, i2, i3⟩ := ih g2 os2 g3 hd2 hc2 hr
        refine ⟨by simp [i1], ?_, ?_⟩
        · rw [i2, t1]
          cases hf : o1.flag with
          | true =>
            simp only [if_true, debitSide, List.filter_cons, hf, List.map_cons,
              List.sum_cons]
            rw [wrap64_add_left, add_assoc]
          | false =>
            simp only [Bool.false_eq_true, if_false, debitSide, List.filter_cons, hf]
        · rw [i3, t2]
          cases hf : o1.flag with
          | true =>
            simp only [if_true, creditSide, List.filter_cons, hf, Bool.not_true,
              Bool.false_eq_true, if_false]
          | false =>
            simp only [Bool.false_eq_true, if_false, creditSide, List.filter_cons, hf,
              Bool.not_false, if_true, List.map_cons, List.sum_cons]
            rw [wrap64_add_left, add_assoc]

/-- On a journal written by the recorder from well-formed entries every run
of the ledger phase returns. -/
theorem ledgerRuns_wellFormed (jname jdate : Text) (es : List Entry)
    (runs : List (ledger_trial × Text)) (g : Globals) (fuel : Nat)
    (hn : '\n' ∉ jname) (hd : '\n' ∉ jdate) (hne : es ≠ [])
    (hwf : ∀ e ∈ es, e.wellFormed) (hfuel : es.length ≤ fuel) :
    ∃ r, ledgerRuns fuel (journal.get_entries jname jdate es) runs g = some r := by
  induction runs generalizing g with
  | nil => exact ⟨_, rfl⟩
  | cons run rest ih =>
    obtain ⟨o, name⟩ := run
    obtain ⟨r, h1, _⟩ := start_wellFormed_sums jname jdate name es o g fuel hn hd hne hwf hfuel
    obtain ⟨o1, g2⟩ := r
    obtain ⟨r2, h2⟩ := ih g2
    obtain ⟨os2, g3⟩ := r2
    exact ⟨(o1 :: os2, g3), by rw [ledgerRuns, h1]; dsimp only; rw [h2]⟩

theorem total_flag (x : ledger_trial) :
    x.total.flag = decide (x.debit_sum > x.credit_sum) := by
  unfold ledger_trial.total
  split <;> simp [*]

theorem total_balance_cd (x : ledger_trial) :
    x.total.balance_cd
      = if x.debit_sum > x.credit_sum then wrap64 (x.debit_sum - x.credit_sum)
        else wrap64 (x.credit_sum - x.debit_sum) := by
  unfold ledger_trial.total
  split <;> rfl

/-- What `total()` followed by `trial()` does to the difference of the two
trial totals: it grows by `debit_sum - credit_sum`, modulo 2^64. -/
theorem total_trial_diff (x : ledger_trial) (g : Globals)
    (hd : inRange g.trial_debit_sum) (hc : inRange g.trial_credit_sum) :
    inRange (x.total.trial g).2.trial_debit_sum
    ∧ inRange (x.total.trial g).2.trial_credit_sum
    ∧ wrap64 ((x.total.trial g).2.trial_debit_sum - (x.total.trial g).2.trial_credit_sum)
        = wrap64 (g.trial_debit_sum - g.trial_credit_sum + (x.debit_sum - x.credit_sum)) := by
  rw [trial_snd_debit, trial_snd_credit, total_flag, total_balance_cd]
  by_cases h : x.debit_sum > x.credit_sum
  · simp only [h, decide_True, if_true]
    refine ⟨wrap64_inRange _, hc, ?_⟩
    unfold wrap64; omega
  · simp only [h, decide_False, Bool.false_eq_true, if_false]
    refine ⟨hd, wrap64_inRange _, ?_⟩
    unfold wrap64; omega

theorem noteLedger_trial_debit_sum (name : Text) (g : Globals) :
    (noteLedger name g).trial_debit_sum = g.trial_debit_sum :=
  rfl

theorem noteLedger_trial_credit_sum (name : Text) (g : Globals) :
    (noteLedger name g).trial_credit_sum = g.trial_credit_sum :=
  rfl

/-- A run on a journal of well-formed entries moves the difference of the
trial totals by the account's debit total less its credit total, modulo 2^64. -/
theorem start_wellFormed_diff (jname jdate name : Text) (es : List Entry)
    (o : ledger_trial) (g : Globals) (fuel : Nat) (hn : '\n' ∉ jname) (hd : '\n' ∉ jdate)
    (hne : es ≠ []) (hwf : ∀ x ∈ es, x.wellFormed) (hfuel : es.length ≤ fuel)
    (hgd : inRange g.trial_debit_sum) (hgc : inRange g.trial_credit_sum) :
    ∃ r, o.start fuel (journal.get_entries jname jdate es) name g = some r
      ∧ inRange r.2.trial_debit_sum ∧ inRange r.2.trial_credit_sum
      ∧ wrap64 (r.2.trial_debit_sum - r.2.trial_credit_sum)
          = wrap64 (g.trial_debit_sum - g.trial_credit_sum
              + (debitTotal name es - creditOnlyTotal name es)) := by
  cases es with
  | nil => exact absurd rfl hne
  | cons e t =>
    have hlt : t.length < fuel := by simp at hfuel; omega
    have hs := foldl_post_sums (e :: t)
      (startState (journal.get_entries jname jdate (e :: t)) name o)
      (by rw [startState_debit_sum]; exact inRange_zero)
      (by rw [startState_credit_sum]; exact inRange_zero)
    rw [startState_debit_sum, startState_credit_sum, startState_filename, zero_add,
      zero_add] at hs
    obtain ⟨t1, t2, t3⟩ := total_trial_diff
      (((e :: t).foldl ledger_trial.post
          (startState (journal.get_entries jname jdate (e :: t)) name o)).withStream
            ⟨[], true, false⟩) (noteLedger name g) hgd hgc
    refine ⟨_, start_wellFormed jname jdate name e t o g fuel hn hd hwf hlt, t1, t2, ?_⟩
    rw [t3, withStream_debit_sum, withStream_credit_sum, hs.2.1, hs.2.2,
      noteLedger_trial_debit_sum, noteLedger_trial_credit_sum]
    unfold wrap64; omega

/-- The difference of the trial totals after the runs of the ledger phase on
a journal of well-formed entries. -/
theorem ledgerRuns_wellFormed_diff (jname jdate : Text) (es : List Entry)
    (runs : List (ledger_trial × Text)) (g : Globals) (fuel : Nat)
    (hn : '\n' ∉ jname) (hd : '\n' ∉ jdate) (hne : es ≠ [])
    (hwf : ∀ e ∈ es, e.wellFormed) (hfuel : es.length ≤ fuel)
    (hgd : inRange g.trial_debit_sum) (hgc : inRange g.trial_credit_sum) :
    ∃ r, ledgerRuns fuel (journal.get_entries jname jdate es) runs g = some r
      ∧ inRange r.2.trial_debit_sum ∧ inRange r.2.trial_credit_sum
      ∧ wrap64 (r.2.trial_debit_sum - r.2.trial_credit_sum)
          = wrap64 (g.trial_debit_sum - g.trial_credit_sum
              + ((runs.map (fun run => debitTotal run.2 es)).sum
                - (runs.map (fun run => creditOnlyTotal run.2 es)).sum)) := by
  induction runs generalizing g with
  | nil =>
    refine ⟨_, rfl, hgd, hgc, ?_⟩
    simp
  | cons run rest ih =>
    obtain ⟨o, name⟩ := run
    obtain ⟨r, h1, h2, h3, h4⟩ :=
      start_wellFormed_diff jname jdate name es o g fuel hn hd hne hwf hfuel hgd hgc
    obtain ⟨o1, g2⟩ := r
    obtain ⟨r2, k1, k2, k3, k4⟩ := ih g2 h2 h3
    obtain ⟨os2, g3⟩ := r2
    refine ⟨(o1 :: os2, g3), by rw [ledgerRuns, h1]; dsimp only; rw [k1], k2, k3, ?_⟩
    simp only [List.map_cons, List.sum_cons] at k4 h4 ⊢
    unfold wrap64 at k4 h4 ⊢
    omega

theorem sum_map_ite_key (names : List Text) (hnd : names.Nodup) (k : Text) (v : Int)
    (hk : k ∈ names) : (names.map (fun A => if k = A then v else 0)).sum = v := by
  induction names with
  | nil => exact absurd hk (List.not_mem_nil k)
  | cons a t ih =>
    have hnd' := List.nodup_cons.mp hnd
    by_cases hka : k = a
    · have hz : (t.map (fun A => if k = A then v else 0)).sum = 0 := by
        apply List.sum_eq_zero
        intro x hx
        obtain ⟨A, hA, rfl⟩ := List.mem_map.mp hx
        have : k ≠ A := fun h => hnd'.1 (hka ▸ h ▸ hA)
        simp [this]
      simp [hka] at hz ⊢
      exact hz
    · have hkt : k ∈ t := by
        rcases List.mem_cons.mp hk with h | h
        · exact absurd h hka
        · exact h
      simp [hka, ih hnd'.2 hkt]

/-- Summing, over a duplicate-free list of names covering all keys, the
totals of the entries filed under each name gives the total of all entries. -/
theorem sum_by_key (names : List Text) (hnd : names.Nodup) (key : Entry → Text)
    (f : Entry → Int) (es : List Entry) (hcov : ∀ e ∈ es, key e ∈ names) :
    (names.map (fun A => ((es.filter (fun e => key e = A)).map f).sum)).sum
      = (es.map f).sum := by
  induction es with
  | nil => simp
  | cons e t ih =>
    have h1 : ∀ A, (((e :: t).filter (fun e => key e = A)).map f).sum
        = (if key e = A then f e else 0) + ((t.filter (fun e => key e = A)).map f).sum := by
      intro A
      by_cases h : key e = A <;> simp [List.filter_cons, h]
    simp only [h1, List.sum_map_add, List.map_cons, List.sum_cons]
    rw [sum_map_ite_key names hnd (key e) (f e) (hcov e (List.mem_cons_self e t)),
      ih (fun x hx => hcov x (List.mem_cons_of_mem e hx))]

theorem creditOnlyTotal_eq (A : Text) (es : List Entry) (h : ∀ e ∈ es, e.from_ ≠ e.to_) :
    creditOnlyTotal A es = creditTotal A es := by
  unfold creditOnlyTotal creditTotal
  congr 2
  apply List.filter_congr
  intro e he
  have := h e he
  by_cases h1 : e.to_ = A
  · have h2 : e.from_ ≠ A := fun hh => this (hh.trans h1.symm)
    simp [h1, h2]
  · simp [h1]

theorem classify_withAux (o : ledger_trial) (t : Text) (b : Bool) :
    (o.withAux t b).classify = o.classify.withAux t b := by
  unfold ledger_trial.classify ledger_trial.withAux
  split
  · rfl
  · split <;> rfl

theorem pass_withAux (o : ledger_trial) (t : Text) (b : Bool) :
    (o.withAux t b).pass = o.pass.withAux t b := by
  have h : (o.withAux t b).readRecord = o.readRecord.withAux t b := rfl
  rw [pass_eq, pass_eq, h, classify_withAux]
  rfl

theorem scan_withAux (fuel : Nat) (o : ledger_trial) (t : Text) (b : Bool) :
    ledger_trial.scan fuel (o.withAux t b)
      = (ledger_trial.scan fuel o).map (fun x => x.withAux t b) := by
  induction fuel generalizing o with
  | zero => rfl
  | succ k ih =>
    have he : (o.withAux t b).pass.in_file.eof = o.pass.in_file.eof := by
      rw [pass_withAux]; rfl
    rw [ledger_trial.scan, ledger_trial.scan, he]
    by_cases h : o.pass.in_file.eof = true
    · rw [if_pos h, if_pos h, pass_withAux]; rfl
    · rw [if_neg h, if_neg h, pass_withAux, ih]

theorem total_result_withAux (x : ledger_trial) (t : Text) (b : Bool) :
    (x.withAux t b).total.result = x.total.result := by
  unfold ledger_trial.total ledger_trial.withAux ledger_trial.result
  split <;> rfl

theorem trial_fst_result (y : ledger_trial) (g : Globals) : (y.trial g).1.result = y.result := by
  unfold ledger_trial.trial ledger_trial.result
  split <;> rfl

theorem startState_withAux (journalTxt name : Text) (o1 o2 : ledger_trial)
    (ha : o1.amount = o2.amount) (ha1 : o1.amount1 = o2.amount1) :
    startState journalTxt name o1
      = (startState journalTxt name o2).withAux o1.out_file_trial o1.flag := by
  unfold startState ledger_trial.withAux
  simp only [ha, ha1]

/-- Bounds on the loop variables when the ledger loop of `main` ends. -/
theorem main_ledger_loop_bounds (number : Nat → Int) (fuel i index : Nat) :
    (main_ledger_loop number fuel i index).1 ≤ max i 50
    ∧ (main_ledger_loop number fuel i index).2 ≤ index + (50 - i) := by
  induction fuel generalizing i index with
  | zero => simp [main_ledger_loop]
  | succ k ih =>
    rw [main_ledger_loop]
    by_cases h : i < 50
    · rw [if_pos h]
      by_cases hz : number i = 0
      · rw [if_pos hz]; simp
      · rw [if_neg hz]
        obtain ⟨h1, h2⟩ := ih (i + 1) (index + 1)
        constructor
        · have : max (i + 1) 50 = 50 := by omega
          have : max i 50 = 50 := by omega
          omega
        · omega
    · rw [if_neg h]; simp

theorem total_result_congr (x y : ledger_trial) (hd : x.debit_sum = y.debit_sum)
    (hc : x.credit_sum = y.credit_sum) : x.total.result = y.total.result := by
  unfold ledger_trial.total ledger_trial.result
  rw [hd, hc]
  split <;> rfl

/-- On a journal of well-formed entries the four result values of a run are
determined by the journal and the ledger name alone. -/
theorem start_wellFormed_result (jname jdate name : Text) (es : List Entry)
    (o1 o2 : ledger_trial) (g1 g2 : Globals) (fuel : Nat)
    (hn : '\n' ∉ jname) (hd : '\n' ∉ jdate) (hne : es ≠ [])
    (hwf : ∀ x ∈ es, x.wellFormed) (hfuel : es.length ≤ fuel) :
    ∃ v, (o1.start fuel (journal.get_entries jname jdate es) name g1).map
            (fun r => r.1.result) = some v
      ∧ (o2.start fuel (journal.get_entries jname jdate es) name g2).map
            (fun r => r.1.result) = some v := by
  cases es with
  | nil => exact absurd rfl hne
  | cons e t =>
    have hlt : t.length < fuel := by simp at hfuel; omega
    have hs1 := foldl_post_sums (e :: t)
      (startState (journal.get_entries jname jdate (e :: t)) name o1)
      (by rw [startState_debit_sum]; exact inRange_zero)
      (by rw [startState_credit_sum]; exact inRange_zero)
    have hs2 := foldl_post_sums (e :: t)
      (startState (journal.get_entries jname jdate (e :: t)) name o2)
      (by rw [startState_debit_sum]; exact inRange_zero)
      (by rw [startState_credit_sum]; exact inRange_zero)
    rw [startState_debit_sum, startState_credit_sum, startState_filename] at hs1 hs2
    rw [start_wellFormed jname jdate name e t o1 g1 fuel hn hd hwf hlt,
      start_wellFormed jname jdate name e t o2 g2 fuel hn hd hwf hlt]
    refine ⟨_, rfl, ?_⟩
    simp only [Option.map_some', Option.some.injEq]
    rw [trial_fst_result, trial_fst_result]
    apply total_result_congr
    · rw [withStream_debit_sum, withStream_debit_sum, hs1.2.1, hs2.2.1]
    · rw [withStream_credit_sum, withStream_credit_sum, hs1.2.2, hs2.2.2]

/-! ## Results for the claims -/

/-- C2 (as amended): whenever the difference of `debit_sum` and `credit_sum`
fits a `long long`, `total()` reports the debit side with balance
`debit_sum - credit_sum` exactly when `debit_sum > credit_sum`, and otherwise
(ties included) the credit side with balance `credit_sum - debit_sum`; the
balance is then `|debit_sum - credit_sum|` and is not negative. -/
theorem total_balance (o : ledger_trial)
    (h : |o.debit_sum - o.credit_sum| ≤ LLONG_MAX) :
    (o.total.flag = true ↔ o.debit_sum > o.credit_sum)
    ∧ (o.debit_sum > o.credit_sum →
        o.total.balance_cd = o.debit_sum - o.credit_sum)
    ∧ (o.debit_sum ≤ o.credit_sum →
        o.total.flag = false ∧ o.total.balance_cd = o.credit_sum - o.debit_sum)
    ∧ o.total.balance_cd = |o.debit_sum - o.credit_sum|
    ∧ 0 ≤ o.total.balance_cd := by
  have hb := abs_le.mp h
  simp only [LLONG_MAX] at hb
  by_cases hc : o.debit_sum > o.credit_sum
  · have ha : |o.debit_sum - o.credit_sum| = o.debit_sum - o.credit_sum :=
      abs_of_nonneg (by omega)
    have hw : wrap64 (o.debit_sum - o.credit_sum) = o.debit_sum - o.credit_sum := by
      unfold wrap64; omega
    have hf : o.total.flag = true := by simp [ledger_trial.total, hc]
    have hv : o.total.balance_cd = o.debit_sum - o.credit_sum := by
      simp [ledger_trial.total, hc, hw]
    refine ⟨⟨fun _ => hc, fun _ => hf⟩, fun _ => hv, fun hle => absurd hc (by omega), ?_, ?_⟩
    · rw [hv, ha]
    · rw [hv]; omega
  · have ha : |o.debit_sum - o.credit_sum| = o.credit_sum - o.debit_sum := by
      rw [abs_of_nonpos (by omega)]; omega
    have hw : wrap64 (o.credit_sum - o.debit_sum) = o.credit_sum - o.debit_sum := by
      unfold wrap64; omega
    have hf : o.total.flag = false := by simp [ledger_trial.total, hc]
    have hv : o.total.balance_cd = o.credit_sum - o.debit_sum := by
      simp [ledger_trial.total, hc, hw]
    refine ⟨⟨fun ht => ?_, fun hgt => absurd hgt hc⟩, fun hgt => absurd hgt hc,
      fun _ => ⟨hf, hv⟩, ?_, ?_⟩
    · rw [hf] at ht; exact absurd ht (by decide)
    · rw [hv, ha]
    · rw [hv]; omega

/-- C2, the tie of the specification: `debit_sum = credit_sum = 50` gives a
credit balance of 0. -/
theorem total_balance_witness :
    |({ blank with debit_sum := 50, credit_sum := 50 } : ledger_trial).debit_sum
        - ({ blank with debit_sum := 50, credit_sum := 50 } : ledger_trial).credit_sum|
      ≤ LLONG_MAX
    ∧ ({ blank with debit_sum := 50, credit_sum := 50 } : ledger_trial).total.flag = false
    ∧ ({ blank with debit_sum := 50, credit_sum := 50 } : ledger_trial).total.balance_cd = 0 := by
  have h : |({ blank with debit_sum := 50, credit_sum := 50 } : ledger_trial).debit_sum
        - ({ blank with debit_sum := 50, credit_sum := 50 } : ledger_trial).credit_sum|
      ≤ LLONG_MAX := by decide
  have t := total_balance { blank with debit_sum := 50, credit_sum := 50 } h
  exact ⟨h, (t.2.2.1 (le_refl _)).1, (t.2.2.1 (le_refl _)).2⟩

/-- C2 (as stated) fails: with `debit_sum` the greatest `long long` and
`credit_sum = -1`, `total()` reports the debit side with the balance
`-9223372036854775808`, which is negative and is not `|debit_sum - credit_sum|`. -/
theorem total_balance_counterexample :
    ({ blank with debit_sum := 9223372036854775807, credit_sum := -1 } : ledger_trial).total.flag
      = true
    ∧ ({ blank with debit_sum := 9223372036854775807, credit_sum := -1 } :
        ledger_trial).total.balance_cd = -9223372036854775808
    ∧ ¬ (0 ≤ ({ blank with debit_sum := 9223372036854775807, credit_sum := -1 } :
        ledger_trial).total.balance_cd)
    ∧ ({ blank with debit_sum := 9223372036854775807, credit_sum := -1 } :
        ledger_trial).total.balance_cd ≠ |(9223372036854775807 : Int) - (-1)| := by
  decide

/-- C5: the journal holding one entry whose debit account was typed as
"Accounts Receivable" makes the scanning loop of `get_entries` run forever:
whatever the number of passes allowed, `start()` does not reach `total()` and
`trial()`. The read of `amount` meets the word "Receivable", sets `failbit`
and leaves `eofbit` clear, so `while (!in_file.eof())` never turns false. -/
theorem start_never_returns (fuel : Nat) :
    blank.start fuel multiWordJournal "Sales".toList globals0 = none := by
  rw [start_eq, scan_none_of_pass _ (by decide) (by decide)]
  rfl

set_option maxRecDepth 100000 in
/-- C7: on the journal of the Cash/Sales entry followed by a record cut off
after its debit account "Cash", the ledger of Cash gets `debit_sum = 200`
and two debit lines, where the journal without the cut record gives
`debit_sum = 100` and one line: the cut record is not skipped but counted
with the amounts left over from the record before it. -/
theorem cut_record_is_counted :
    (blank.start 5 cutJournal "Cash".toList globals0).map
        (fun r => (r.1.debit_sum, r.1.credit_sum)) = some (200, 0)
    ∧ (blank.start 5 cashSaleJournal "Cash".toList globals0).map
        (fun r => (r.1.debit_sum, r.1.credit_sum)) = some (100, 0)
    ∧ (blank.start 5 cutJournal "Cash".toList globals0).map (fun r => r.1.out_file)
      ≠ (blank.start 5 cashSaleJournal "Cash".toList globals0).map (fun r => r.1.out_file) := by
  decide

/-- C9: one pass of the scanning loop, for the record it reads. If the
record's debit account is the ledger name, exactly the debit line (date,
name, the record's credit amount `amount1`) is appended to the ledger file,
the record's debit amount is added to `debit_sum` and `credit_sum` is
unchanged; else if its credit account is the ledger name, exactly the credit
line (date, name, the record's debit amount) is appended, the credit amount
is added to `credit_sum` and `debit_sum` is unchanged; otherwise nothing is
written and neither sum changes. Additions are `long long` additions. -/
theorem pass_classifies (o : ledger_trial) :
    (o.readRecord.parsed.entery = o.filename →
        o.pass.out_file = o.out_file
          ++ debitLine o.readRecord.parsed.date o.filename o.readRecord.parsed.amount1
        ∧ o.pass.debit_sum = wrap64 (o.debit_sum + o.readRecord.parsed.amount)
        ∧ o.pass.credit_sum = o.credit_sum)
    ∧ (o.readRecord.parsed.entery ≠ o.filename → o.readRecord.parsed.entry = o.filename →
        o.pass.out_file = o.out_file
          ++ creditLine o.readRecord.parsed.date o.filename o.readRecord.parsed.amount
        ∧ o.pass.credit_sum = wrap64 (o.credit_sum + o.readRecord.parsed.amount1)
        ∧ o.pass.debit_sum = o.debit_sum)
    ∧ (o.readRecord.parsed.entery ≠ o.filename → o.readRecord.parsed.entry ≠ o.filename →
        o.pass.out_file = o.out_file ∧ o.pass.debit_sum = o.debit_sum
        ∧ o.pass.credit_sum = o.credit_sum) := by
  refine ⟨fun h => ?_, fun h1 h2 => ?_, fun h1 h2 => ?_⟩
  · have h' : o.readRecord.entery = o.readRecord.filename := h
    simp only [ledger_trial.pass, ledger_trial.classify, h', if_true]
    exact ⟨rfl, rfl, rfl⟩
  · have h1' : ¬ o.readRecord.entery = o.readRecord.filename := h1
    have h2' : o.readRecord.entry = o.readRecord.filename := h2
    simp only [ledger_trial.pass, ledger_trial.classify, h1', h2', if_true, if_false]
    exact ⟨rfl, rfl, rfl⟩
  · have h1' : ¬ o.readRecord.entery = o.readRecord.filename := h1
    have h2' : ¬ o.readRecord.entry = o.readRecord.filename := h2
    simp only [ledger_trial.pass, ledger_trial.classify, h1', h2', if_false]
    exact ⟨rfl, rfl, rfl⟩

/-- C10: when every one of the 49 prompts of the ledger loop is answered
with 1, the loop ends by its bound with `i = 50`, so `total_trial()` is
called on `t[50]`, one past the last element of the 50-element array `t`
(`index` ends at 49, so the writes to `ledgernames` stay inside it). -/
theorem ledger_loop_runs_off_the_end :
    main_ledger_loop (fun _ => 1) 50 1 0 = (50, 49)
    ∧ ¬ ((main_ledger_loop (fun _ => 1) 50 1 0).1 < 50)
    ∧ ∀ number : Nat → Int,
        (main_ledger_loop number 50 1 0).1 ≤ 50 ∧ (main_ledger_loop number 50 1 0).2 ≤ 49 := by
  refine ⟨by decide, by decide, fun number => ?_⟩
  have h := main_ledger_loop_bounds number 50 1 0
  simpa using h

end FRMS
